import Mathlib

/-!
Verification of the `Node` selector-tree algebra of `src/libsass/node.hpp`
(the variant tree used by the Sass `@extend` weaving code).

The repository ships only the header `node.hpp`: it fixes the data model
(the four-variant `Node` type, the `TYPE` enum, the `shared_ptr<NodeDeque>`
collection member) and documents the operations, but the function bodies
(`node.cpp`) and the selector AST (`ast.hpp`) are not part of the sources.
Definitions below that embed the header's data model say so; definitions
whose body is absent from the sources are modelled from the specification
and carry a doc comment starting with `Modelled from the spec:`.
-/

namespace CodaSass

/-- Modelled from the spec: `Complex_Selector::Combinator` (from the absent
`ast.hpp`) — the combinator kinds "none/descendant, child, adjacent-sibling,
general-sibling". The descendant kind doubles as the "none" default. -/
inductive Combinator
  | descendant
  | child
  | adjacentSibling
  | generalSibling
deriving DecidableEq, Repr

/-- Modelled from the spec: one link of the compiler's native selector chain —
a leading combinator paired with the compound selector (a conjunction of
simple selectors, modelled as strings) that follows it. -/
structure Link where
  comb : Combinator
  head : List String
deriving DecidableEq, Repr

/-- Modelled from the spec: a `Complex_Selector*` — a linked chain of links.
The empty list models the null pointer / absent chain. -/
abbrev Chain := List Link

/-- The variant tree of `node.hpp`: a tagged value with exactly one of four
shapes.  `selector` holds the `mpSelector` payload (a `Complex_Selector`
value), `collection` holds the ordered child sequence of `mpCollection`. -/
inductive Node
  | combinator (c : Combinator)
  | selector (s : Chain)
  | collection (l : List Node)
  | nil

/-- The `TYPE` enum of `node.hpp`. -/
inductive Node.TYPE
  | SELECTOR
  | COMBINATOR
  | COLLECTION
  | NIL
deriving DecidableEq, Repr

/-- `Node::type()` — the variant tag, fixed at construction. -/
def Node.type : Node → Node.TYPE
  | .combinator _ => .COMBINATOR
  | .selector _ => .SELECTOR
  | .collection _ => .COLLECTION
  | .nil => .NIL

/-- `Node::isCombinator()`. -/
def Node.isCombinator (n : Node) : Bool := n.type == .COMBINATOR

/-- `Node::isSelector()`. -/
def Node.isSelector (n : Node) : Bool := n.type == .SELECTOR

/-- `Node::isCollection()`. -/
def Node.isCollection (n : Node) : Bool := n.type == .COLLECTION

/-- `Node::isNil()`. -/
def Node.isNil (n : Node) : Bool := n.type == .NIL

/-- `Node::selector()` — the `mpSelector` payload; null (`none`) unless the
node is Selector-typed. -/
def Node.selector? : Node → Option Chain
  | .selector s => some s
  | _ => none

/-- `Node::collection()` — the `mpCollection` payload; null (`none`) unless
the node is Collection-typed. -/
def Node.collection? : Node → Option (List Node)
  | .collection l => some l
  | _ => none

/-- The error taxonomy of the spec: precondition violation (non-Collection
operand to `plus`/`contains`), malformed chain (bad input to
`nodeToComplexSelector`), and null input (absent selector passed to
`createSelector`).  All abort the enclosing operation. -/
inductive NodeError
  | preconditionViolation
  | malformedChain
  | nullInput
deriving DecidableEq, Repr

/-- `Node::createCombinator`. -/
def Node.createCombinator (c : Combinator) : Node := .combinator c

/-- Modelled from the spec: `Node::createSelector(pSelector, ctx)` clones the
given compound selector, stripping off the trailing tail links and the
leading combinator (reset to the descendant/none default); a null selector
pointer (the empty chain) is a `nullInput` failure. -/
def Node.createSelector : Chain → Except NodeError Node
  | [] => .error .nullInput
  | l :: _ => .ok (.selector [⟨Combinator.descendant, l.head⟩])

/-- `Node::createCollection(values)` — a Collection whose children are the
given values in order (the nullary overload is `createCollection []`). -/
def Node.createCollection (values : List Node) : Node := .collection values

/-- `Node::createNil()`. -/
def Node.createNil : Node := .nil

mutual

/-- Modelled from the spec: `Node::operator==` — tag first, then Combinator
by kind, Selector by deep value equality of the compound selector,
Collection element-wise in order, Nil always equal to Nil. -/
def Node.beq : Node → Node → Bool
  | .combinator c1, .combinator c2 => c1 == c2
  | .selector s1, .selector s2 => s1 == s2
  | .collection l1, .collection l2 => Node.beqList l1 l2
  | .nil, .nil => true
  | _, _ => false

/-- Element-wise equality of two child sequences (same length, pairwise
equal, in order). -/
def Node.beqList : List Node → List Node → Bool
  | [], [] => true
  | a :: as, b :: bs => Node.beq a b && Node.beqList as bs
  | _, _ => false

end

/-- Specification-level matching of two links when simple-selector order is
not significant: equal combinator kinds and permuted compound selectors. -/
def LinkEquiv (a b : Link) : Prop := a.comb = b.comb ∧ a.head.Perm b.head

mutual

/-- Specification-level node matching with simple-selector order relaxed:
tags, combinator kinds and sequence order significant, compound selectors
up to permutation. -/
inductive NodeEquiv : Node → Node → Prop
  | combinator (c : Combinator) : NodeEquiv (.combinator c) (.combinator c)
  | selector {s1 s2 : Chain} : List.Forall₂ LinkEquiv s1 s2 →
      NodeEquiv (.selector s1) (.selector s2)
  | collection {l1 l2 : List Node} : NodeEquivList l1 l2 →
      NodeEquiv (.collection l1) (.collection l2)
  | nil : NodeEquiv .nil .nil

/-- Element-wise `NodeEquiv` over child sequences, in order. -/
inductive NodeEquivList : List Node → List Node → Prop
  | nil : NodeEquivList [] []
  | cons {a b : Node} {as bs : List Node} : NodeEquiv a b → NodeEquivList as bs →
      NodeEquivList (a :: as) (b :: bs)

end

/-- Specification-level candidate matching for `contains`: exact structural
equality when the order flag is set, `NodeEquiv` when it is not. -/
def NodeMatch : Bool → Node → Node → Prop
  | true, a, b => a = b
  | false, a, b => NodeEquiv a b

/-- Pointer-level node, from the header: `mpCollection` is a
`shared_ptr<NodeDeque>`, so a Collection node holds a pointer (an index into
a heap of deques) and a plain C++ copy of the node copies that pointer.
The other payloads are held inline. -/
inductive PNode
  | combinator (c : Combinator)
  | selector (s : Chain)
  | collection (ptr : Nat)
  | nil
deriving DecidableEq, Repr

/-- The heap of `NodeDeque` allocations: slot `i` is the deque shared by
every Collection node whose pointer is `i`. -/
abbrev DequeHeap := List (List PNode)

/-- From the header: the default C++ copy of a `Node` copies its four fields,
`shared_ptr` included — the copy designates the very same deque. -/
def copyPNode (n : PNode) : PNode := n

/-- `Node::collection()` at pointer level: the deque the node's
`mpCollection` designates in the current heap. -/
def PNode.collectionView (h : DequeHeap) : PNode → Option (List PNode)
  | .collection i => h[i]?
  | _ => none

/-- Modelled from the spec: `Node::plus(rhs)` at pointer level — both
operands must be Collections; the elements of `rhs`'s deque are shallow
copied onto the end of `this`'s deque, in place. -/
def plusP (h : DequeHeap) : PNode → PNode → Except NodeError DequeHeap
  | .collection i, .collection j =>
      match h[i]?, h[j]? with
      | some xs, some ys => .ok (h.set i (xs ++ ys))
      | _, _ => .error .preconditionViolation
  | _, _ => .error .preconditionViolation

/-- Allocation-level node for the clone analysis: `mpSelector` is a pointer
into the allocation context, so a Selector node holds an index into a heap
of compound-selector values; Collection children are held inline (deque
sharing is analysed separately through `PNode`). -/
inductive SNode
  | combinator (c : Combinator)
  | selector (p : Nat)
  | collection (l : List SNode)
  | nil

/-- The active allocation context: the heap of compound-selector values the
Selector nodes point into. -/
abbrev SelHeap := List Chain

mutual

/-- Modelled from the spec: `Node::clone(ctx)` — Combinator and Nil clones
are plain value copies; a Selector clone allocates a fresh independent copy
of the compound-selector value through the allocation context; a Collection
clone recursively clones every child.  Returns the grown context and the
clone. -/
def cloneS (h : SelHeap) : SNode → SelHeap × SNode
  | .combinator c => (h, .combinator c)
  | .selector p => (h ++ [h.getD p []], .selector h.length)
  | .collection l => ((cloneSList h l).1, .collection (cloneSList h l).2)
  | .nil => (h, .nil)

/-- Clone of a child sequence, left to right, threading the context. -/
def cloneSList (h : SelHeap) : List SNode → SelHeap × List SNode
  | [] => (h, [])
  | a :: as =>
      ((cloneSList (cloneS h a).1 as).1,
       (cloneS h a).2 :: (cloneSList (cloneS h a).1 as).2)

end

mutual

/-- The value an allocation-level node denotes: every selector pointer is
dereferenced in the given context. -/
def derefS (h : SelHeap) : SNode → Node
  | .combinator c => .combinator c
  | .selector p => .selector (h.getD p [])
  | .collection l => .collection (derefSList h l)
  | .nil => .nil

/-- `derefS` over a child sequence. -/
def derefSList (h : SelHeap) : List SNode → List Node
  | [] => []
  | a :: as => derefS h a :: derefSList h as

end

mutual

/-- The selector-payload pointers reachable from a node: the slots of the
allocation context its observable value depends on. -/
def selPtrs : SNode → List Nat
  | .combinator _ => []
  | .selector p => [p]
  | .collection l => selPtrsList l
  | .nil => []

/-- `selPtrs` over a child sequence. -/
def selPtrsList : List SNode → List Nat
  | [] => []
  | a :: as => selPtrs a ++ selPtrsList as

end

/-- Modelled from the spec: when simple-selector order is not significant,
two chains of links match when they have the same links in order, with each
pair of compound selectors compared as unordered multisets of simple
selectors and the combinator kinds equal. -/
def linksEqualUnordered : Chain → Chain → Bool
  | [], [] => true
  | a :: as, b :: bs =>
      a.comb == b.comb && a.head.isPerm b.head && linksEqualUnordered as bs
  | _, _ => false

mutual

/-- Modelled from the spec: `nodesEqual(one, two, simpleSelectorOrderDependent)` —
structural equality, except that when the flag is false the compound
selectors inside Selector nodes compare unordered; combinator kind and
sequence order stay significant. -/
def nodesEqual (orderDep : Bool) : Node → Node → Bool
  | .combinator c1, .combinator c2 => c1 == c2
  | .selector s1, .selector s2 =>
      if orderDep then s1 == s2 else linksEqualUnordered s1 s2
  | .collection l1, .collection l2 => nodesEqualList orderDep l1 l2
  | .nil, .nil => true
  | _, _ => false

/-- Element-wise `nodesEqual` over child sequences. -/
def nodesEqualList (orderDep : Bool) : List Node → List Node → Bool
  | [], [] => true
  | a :: as, b :: bs => nodesEqual orderDep a b && nodesEqualList orderDep as bs
  | _, _ => false

end

/-- Modelled from the spec: `Node::plus(rhs)` — both operands must be
Collections (else a precondition violation); appends a copy of each element
of `rhs`, in order, to the end of `this`, returning the updated `this`. -/
def Node.plus : Node → Node → Except NodeError Node
  | .collection xs, .collection ys => .ok (.collection (xs ++ ys))
  | _, _ => .error .preconditionViolation

/-- Modelled from the spec: `Node::contains(potentialChild,
simpleSelectorOrderDependent)` — `this` must be a Collection of candidate
Collections and `potentialChild` a Collection (else a precondition
violation); true iff some candidate matches `potentialChild` under
`nodesEqual`, except that an empty `potentialChild` never matches. -/
def Node.contains : Node → Node → Bool → Except NodeError Bool
  | .collection cands, .collection sought, orderDep =>
      if sought.isEmpty then .ok false
      else .ok (cands.any fun cand => nodesEqual orderDep cand (.collection sought))
  | _, _, _ => .error .preconditionViolation

/-- Modelled from the spec: the body of `complexSelectorToNode` — each chain
link becomes a Combinator node (the link's leading combinator, the
descendant/none default included) followed by a Selector node holding the
stripped one-link clone of the link's compound selector. -/
def chainToNodeList : Chain → List Node
  | [] => []
  | l :: rest =>
      .combinator l.comb :: .selector [⟨Combinator.descendant, l.head⟩] :: chainToNodeList rest

/-- Modelled from the spec: `complexSelectorToNode(pToConvert, ctx)` — a
Collection of alternating Combinator/Selector nodes, one pair per link, in
chain order. -/
def complexSelectorToNode (pToConvert : Chain) : Node :=
  .collection (chainToNodeList pToConvert)

/-- Modelled from the spec: the walk of `nodeToComplexSelector` over the
child list — consumes one Combinator node and one Selector node per link,
re-attaching the combinator to the selector's compound; anything else
(a nested Collection, a Nil, a broken alternation, an empty selector
payload) is a malformed-chain failure with no partial result. -/
def nodeListToChain : List Node → Except NodeError Chain
  | [] => .ok []
  | .combinator c :: .selector (l :: _) :: rest =>
      (nodeListToChain rest).map fun t => ⟨c, l.head⟩ :: t
  | _ => .error .malformedChain

/-- Modelled from the spec: `nodeToComplexSelector(toConvert, ctx)` — the
input must be a Collection forming a flat alternating Combinator/Selector
sequence; rebuilds the linked chain or fails with a malformed-chain error. -/
def nodeToComplexSelector : Node → Except NodeError Chain
  | .collection l => nodeListToChain l
  | _ => .error .malformedChain

/-- A well-formed alternating Collection child list: Combinator/Selector
pairs where each Selector node is in the stripped form produced by
`createSelector` (a single link with the descendant/none combinator). -/
def wfAlternating : List Node → Bool
  | [] => true
  | .combinator _ :: .selector s :: rest =>
      (match s with
       | [l] => l.comb == Combinator.descendant
       | _ => false) && wfAlternating rest
  | _ => false

/-- The shape `nodeListToChain` accepts: alternating Combinator/Selector
pairs, the Selector payload non-null. -/
def isAlternatingPairs : List Node → Bool
  | [] => true
  | .combinator _ :: .selector (_ :: _) :: rest => isAlternatingPairs rest
  | _ => false

mutual

theorem Node.beq_iff_eq : ∀ (a b : Node), Node.beq a b = true ↔ a = b
  | .combinator _, .combinator _ => by simp [Node.beq]
  | .selector _, .selector _ => by simp [Node.beq]
  | .collection l1, .collection l2 => by
      simp only [Node.beq, Node.beqList_iff_eq l1 l2]
      constructor
      · intro h; rw [h]
      · intro h; cases h; rfl
  | .nil, .nil => by simp [Node.beq]
  | .combinator _, .selector _ => by simp [Node.beq]
  | .combinator _, .collection _ => by simp [Node.beq]
  | .combinator _, .nil => by simp [Node.beq]
  | .selector _, .combinator _ => by simp [Node.beq]
  | .selector _, .collection _ => by simp [Node.beq]
  | .selector _, .nil => by simp [Node.beq]
  | .collection _, .combinator _ => by simp [Node.beq]
  | .collection _, .selector _ => by simp [Node.beq]
  | .collection _, .nil => by simp [Node.beq]
  | .nil, .combinator _ => by simp [Node.beq]
  | .nil, .selector _ => by simp [Node.beq]
  | .nil, .collection _ => by simp [Node.beq]

theorem Node.beqList_iff_eq : ∀ (l1 l2 : List Node), Node.beqList l1 l2 = true ↔ l1 = l2
  | [], [] => by simp [Node.beqList]
  | a :: as, b :: bs => by
      simp [Node.beqList, Node.beq_iff_eq a b, Node.beqList_iff_eq as bs]
  | [], _ :: _ => by simp [Node.beqList]
  | _ :: _, [] => by simp [Node.beqList]

end

/-- Element-wise equality of child sequences is length plus pairwise
equality over the zip. -/
theorem Node.beqList_iff_zip : ∀ (l1 l2 : List Node),
    Node.beqList l1 l2 = true ↔
      l1.length = l2.length ∧ ∀ p ∈ l1.zip l2, Node.beq p.1 p.2 = true
  | [], [] => by simp [Node.beqList]
  | a :: as, b :: bs => by
      simp [Node.beqList, Node.beqList_iff_zip as bs]
      tauto
  | [], _ :: _ => by simp [Node.beqList]
  | _ :: _, [] => by simp [Node.beqList]

/-- Unordered link-chain comparison agrees with the specification relation
`List.Forall₂ LinkEquiv`. -/
theorem linksEqualUnordered_iff : ∀ (s1 s2 : Chain),
    linksEqualUnordered s1 s2 = true ↔ List.Forall₂ LinkEquiv s1 s2
  | [], [] => by simp [linksEqualUnordered]
  | a :: as, b :: bs => by
      simp [linksEqualUnordered, LinkEquiv, List.isPerm_iff,
        linksEqualUnordered_iff as bs, and_assoc]
  | [], _ :: _ => by simp [linksEqualUnordered]
  | _ :: _, [] => by simp [linksEqualUnordered]

mutual

theorem nodesEqual_true_iff : ∀ (a b : Node), nodesEqual true a b = true ↔ a = b
  | .combinator _, .combinator _ => by simp [nodesEqual]
  | .selector _, .selector _ => by simp [nodesEqual]
  | .collection l1, .collection l2 => by
      simp only [nodesEqual, nodesEqualList_true_iff l1 l2]
      constructor
      · intro h; rw [h]
      · intro h; cases h; rfl
  | .nil, .nil => by simp [nodesEqual]
  | .combinator _, .selector _ => by simp [nodesEqual]
  | .combinator _, .collection _ => by simp [nodesEqual]
  | .combinator _, .nil => by simp [nodesEqual]
  | .selector _, .combinator _ => by simp [nodesEqual]
  | .selector _, .collection _ => by simp [nodesEqual]
  | .selector _, .nil => by simp [nodesEqual]
  | .collection _, .combinator _ => by simp [nodesEqual]
  | .collection _, .selector _ => by simp [nodesEqual]
  | .collection _, .nil => by simp [nodesEqual]
  | .nil, .combinator _ => by simp [nodesEqual]
  | .nil, .selector _ => by simp [nodesEqual]
  | .nil, .collection _ => by simp [nodesEqual]

theorem nodesEqualList_true_iff : ∀ (l1 l2 : List Node),
    nodesEqualList true l1 l2 = true ↔ l1 = l2
  | [], [] => by simp [nodesEqualList]
  | a :: as, b :: bs => by
      simp [nodesEqualList, nodesEqual_true_iff a b, nodesEqualList_true_iff as bs]
  | [], _ :: _ => by simp [nodesEqualList]
  | _ :: _, [] => by simp [nodesEqualList]

end

mutual

theorem nodesEqual_false_iff : ∀ (a b : Node), nodesEqual false a b = true ↔ NodeEquiv a b
  | .combinator c1, .combinator c2 => by
      simp only [nodesEqual, beq_iff_eq]
      constructor
      · rintro rfl; exact NodeEquiv.combinator c1
      · intro h; cases h; rfl
  | .selector s1, .selector s2 => by
      simp only [nodesEqual, Bool.false_eq_true, if_false, linksEqualUnordered_iff s1 s2]
      constructor
      · intro h; exact NodeEquiv.selector h
      · intro h; cases h; assumption
  | .collection l1, .collection l2 => by
      simp only [nodesEqual, nodesEqualList_false_iff l1 l2]
      constructor
      · intro h; exact NodeEquiv.collection h
      · intro h; cases h; assumption
  | .nil, .nil => by
      constructor
      · intro _; exact NodeEquiv.nil
      · intro _; rfl
  | .combinator _, .selector _ => by
      constructor
      · intro h; simp [nodesEqual] at h
      · intro h; cases h
  | .combinator _, .collection _ => by
      constructor
      · intro h; simp [nodesEqual] at h
      · intro h; cases h
  | .combinator _, .nil => by
      constructor
      · intro h; simp [nodesEqual] at h
      · intro h; cases h
  | .selector _, .combinator _ => by
      constructor
      · intro h; simp [nodesEqual] at h
      · intro h; cases h
  | .selector _, .collection _ => by
      constructor
      · intro h; simp [nodesEqual] at h
      · intro h; cases h
  | .selector _, .nil => by
      constructor
      · intro h; simp [nodesEqual] at h
      · intro h; cases h
  | .collection _, .combinator _ => by
      constructor
      · intro h; simp [nodesEqual] at h
      · intro h; cases h
  | .collection _, .selector _ => by
      constructor
      · intro h; simp [nodesEqual] at h
      · intro h; cases h
  | .collection _, .nil => by
      constructor
      · intro h; simp [nodesEqual] at h
      · intro h; cases h
  | .nil, .combinator _ => by
      constructor
      · intro h; simp [nodesEqual] at h
      · intro h; cases h
  | .nil, .selector _ => by
      constructor
      · intro h; simp [nodesEqual] at h
      · intro h; cases h
  | .nil, .collection _ => by
      constructor
      · intro h; simp [nodesEqual] at h
      · intro h; cases h

theorem nodesEqualList_false_iff : ∀ (l1 l2 : List Node),
    nodesEqualList false l1 l2 = true ↔ NodeEquivList l1 l2
  | [], [] => by
      constructor
      · intro _; exact NodeEquivList.nil
      · intro _; rfl
  | a :: as, b :: bs => by
      simp only [nodesEqualList, Bool.and_eq_true, nodesEqual_false_iff a b,
        nodesEqualList_false_iff as bs]
      constructor
      · intro h; exact NodeEquivList.cons h.1 h.2
      · intro h; cases h; constructor <;> assumption
  | [], _ :: _ => by
      constructor
      · intro h; simp [nodesEqualList] at h
      · intro h; cases h
  | _ :: _, [] => by
      constructor
      · intro h; simp [nodesEqualList] at h
      · intro h; cases h

end

/-- Child sequences that compare equal under `nodesEqual` have the same
length, whatever the order flag. -/
theorem nodesEqualList_length : ∀ (orderDep : Bool) (l1 l2 : List Node),
    nodesEqualList orderDep l1 l2 = true → l1.length = l2.length
  | _, [], [] => fun _ => rfl
  | od, a :: as, b :: bs => by
      simp only [nodesEqualList, Bool.and_eq_true, List.length_cons]
      intro h
      rw [nodesEqualList_length od as bs h.2]
  | _, [], _ :: _ => by simp [nodesEqualList]
  | _, _ :: _, [] => by simp [nodesEqualList]

/-- C3: `Node::operator==` is an equivalence relation — reflexive, symmetric
and transitive over all Node values — nodes with different variant tags are
never equal, and within a tag it compares Combinator by kind, Selector by
deep value equality, Collection by length and pairwise-equal elements in
order, and Nil always equals Nil. -/
theorem node_eq_equivalence :
    (∀ a : Node, Node.beq a a = true) ∧
    (∀ a b : Node, Node.beq a b = Node.beq b a) ∧
    (∀ a b c : Node, Node.beq a b = true → Node.beq b c = true → Node.beq a c = true) ∧
    (∀ a b : Node, a.type ≠ b.type → Node.beq a b = false) ∧
    (∀ c1 c2 : Combinator, Node.beq (.combinator c1) (.combinator c2) = (c1 == c2)) ∧
    (∀ s1 s2 : Chain, Node.beq (.selector s1) (.selector s2) = (s1 == s2)) ∧
    (∀ l1 l2 : List Node,
      Node.beq (.collection l1) (.collection l2) = true ↔
        l1.length = l2.length ∧ ∀ p ∈ l1.zip l2, Node.beq p.1 p.2 = true) ∧
    Node.beq Node.nil Node.nil = true := by
  refine ⟨?_, ?_, ?_, ?_, fun _ _ => rfl, fun _ _ => rfl, ?_, rfl⟩
  · intro a
    exact (Node.beq_iff_eq a a).mpr rfl
  · intro a b
    have h1 := Node.beq_iff_eq a b
    have h2 := Node.beq_iff_eq b a
    rcases hab : Node.beq a b <;> rcases hba : Node.beq b a <;> simp_all
  · intro a b c hab hbc
    exact (Node.beq_iff_eq a c).mpr
      (((Node.beq_iff_eq a b).mp hab).trans ((Node.beq_iff_eq b c).mp hbc))
  · intro a b hne
    rcases h : Node.beq a b
    · rfl
    · exact absurd (congrArg Node.type ((Node.beq_iff_eq a b).mp h)) hne
  · intro l1 l2
    simpa only [Node.beq] using Node.beqList_iff_zip l1 l2

/-- Closed instance of `node_eq_equivalence`: transitivity applied at
concrete nodes, hypotheses evaluated. -/
theorem node_eq_equivalence_witness :
    Node.beq (Node.collection [Node.nil]) (Node.collection [Node.nil]) = true :=
  node_eq_equivalence.2.2.1 (Node.collection [Node.nil]) (Node.collection [Node.nil])
    (Node.collection [Node.nil]) (by rfl) (by rfl)

/-- C2: `contains(potentialChild, simpleSelectorOrderDependent)` on a
Collection-of-Collections is true iff some candidate matches
`potentialChild` — exact structural equality when the flag is true, the
order-relaxed `NodeEquiv` (compound selectors as unordered sets, combinator
kind and sequence order significant) when it is false; an empty
`potentialChild` never matches, candidates of different length never match,
and Nil elements match only Nil. -/
theorem contains_spec :
    (∀ (cands sought : List Node) (orderDep : Bool),
      Node.contains (.collection cands) (.collection sought) orderDep = .ok true ↔
        sought ≠ [] ∧ ∃ cand ∈ cands, NodeMatch orderDep cand (.collection sought)) ∧
    (∀ (cands : List Node) (orderDep : Bool),
      Node.contains (.collection cands) (.collection []) orderDep = .ok false) ∧
    (∀ (orderDep : Bool) (l1 l2 : List Node), l1.length ≠ l2.length →
      nodesEqual orderDep (.collection l1) (.collection l2) = false) ∧
    (∀ (orderDep : Bool) (b : Node),
      nodesEqual orderDep Node.nil b = true ↔ b = Node.nil) := by
  refine ⟨?_, ?_, ?_, ?_⟩
  · intro cands sought orderDep
    cases sought with
    | nil => simp [Node.contains]
    | cons s ss =>
        cases orderDep <;>
          simp [Node.contains, NodeMatch, List.any_eq_true,
            nodesEqual_false_iff, nodesEqual_true_iff]
  · intro cands orderDep
    simp [Node.contains]
  · intro orderDep l1 l2 hne
    rcases h : nodesEqual orderDep (.collection l1) (.collection l2)
    · rfl
    · have : nodesEqualList orderDep l1 l2 = true := by simpa [nodesEqual] using h
      exact absurd (nodesEqualList_length orderDep l1 l2 this) hne
  · intro orderDep b
    cases b <;> cases orderDep <;> simp [nodesEqual]

/-- Closed instance of `contains_spec`: the length guard applied to
concrete collections of different lengths. -/
theorem contains_spec_witness :
    nodesEqual false (.collection []) (.collection [Node.nil]) = false :=
  contains_spec.2.2.1 false [] [Node.nil] (by decide)

/-- C6: `plus` and `contains` on any operand that is not Collection-typed
abort with a precondition-violation error — never a silent coercion or a
normal result. -/
theorem nonCollection_precondition :
    ∀ (a b : Node) (orderDep : Bool), a.isCollection = false ∨ b.isCollection = false →
      Node.plus a b = .error .preconditionViolation ∧
      Node.contains a b orderDep = .error .preconditionViolation := by
  intro a b orderDep h
  cases a <;> cases b <;>
    simp [Node.isCollection, Node.type, Node.plus, Node.contains] at h ⊢

/-- Closed instance of `nonCollection_precondition` at Nil operands. -/
theorem nonCollection_precondition_witness :
    Node.plus Node.nil Node.nil = .error .preconditionViolation ∧
    Node.contains Node.nil Node.nil true = .error .preconditionViolation :=
  nonCollection_precondition Node.nil Node.nil true (Or.inl (by rfl))

/-- C7: `createSelector` returns a Selector node holding a clone of the
given compound selector with the trailing tail and the leading combinator
stripped (the combinator is never embedded: the stored link carries the
descendant/none default, and the result is independent of the input's
combinator and tail), and it fails with a null-input error on an absent
selector. -/
theorem createSelector_spec :
    Node.createSelector [] = .error .nullInput ∧
    (∀ (l : Link) (rest : Chain),
      Node.createSelector (l :: rest) =
        .ok (.selector [⟨Combinator.descendant, l.head⟩])) ∧
    (∀ (l : Link) (rest : Chain) (n : Node), Node.createSelector (l :: rest) = .ok n →
      n.isSelector = true ∧ n.selector? = some [⟨Combinator.descendant, l.head⟩]) ∧
    (∀ (c1 c2 : Combinator) (hd : List String) (t1 t2 : Chain),
      Node.createSelector (⟨c1, hd⟩ :: t1) = Node.createSelector (⟨c2, hd⟩ :: t2)) := by
  refine ⟨rfl, fun _ _ => rfl, ?_, fun _ _ _ _ _ => rfl⟩
  intro l rest n h
  cases h
  exact ⟨rfl, rfl⟩

/-- Closed instance of `createSelector_spec`: stripping observed on a
concrete child-combinator link with a non-empty tail. -/
theorem createSelector_spec_witness :
    (Node.selector [⟨Combinator.descendant, ["a"]⟩]).isSelector = true ∧
    (Node.selector [⟨Combinator.descendant, ["a"]⟩]).selector? =
      some [⟨Combinator.descendant, ["a"]⟩] :=
  createSelector_spec.2.2.1 ⟨Combinator.child, ["a"]⟩ [⟨Combinator.descendant, ["b"]⟩]
    (Node.selector [⟨Combinator.descendant, ["a"]⟩]) (by rfl)

/-- C9: a Nil node is never equal to an empty Collection, a Collection
containing one Nil differs from the empty Collection (lengths 1 vs 0), and
any two Nil nodes are equal. -/
theorem nil_vs_empty_collection :
    Node.createCollection [] ≠ Node.createCollection [Node.createNil] ∧
    Node.createNil = Node.createNil ∧
    Node.beq Node.createNil (Node.createCollection []) = false ∧
    Node.beq (Node.createCollection []) Node.createNil = false ∧
    (Node.createCollection []).collection?.map List.length = some 0 ∧
    (Node.createCollection [Node.createNil]).collection?.map List.length = some 1 := by
  refine ⟨?_, rfl, rfl, rfl, rfl, rfl⟩
  intro h
  simp [Node.createCollection] at h

/-- Converting a chain to nodes and back recovers the chain exactly. -/
theorem nodeListToChain_chainToNodeList : ∀ (c : Chain),
    nodeListToChain (chainToNodeList c) = .ok c
  | [] => rfl
  | l :: rest => by
      simp [chainToNodeList, nodeListToChain, Except.map, nodeListToChain_chainToNodeList rest]

/-- A well-formed alternating child list rebuilds to a chain that converts
back to the very same child list. -/
theorem wf_roundtrip : ∀ (l : List Node), wfAlternating l = true →
    ∃ t : Chain, nodeListToChain l = .ok t ∧ chainToNodeList t = l
  | [] => fun _ => ⟨[], rfl, rfl⟩
  | .combinator c :: .selector s :: rest => by
      intro h
      match s with
      | [] => simp [wfAlternating] at h
      | _ :: _ :: _ => simp [wfAlternating] at h
      | [l0] =>
        obtain ⟨lc, lh⟩ := l0
        simp only [wfAlternating, Bool.and_eq_true, beq_iff_eq] at h
        obtain ⟨hcomb, hrest⟩ := h
        obtain ⟨t, ht, hc⟩ := wf_roundtrip rest hrest
        subst hcomb
        exact ⟨⟨c, lh⟩ :: t, by simp [nodeListToChain, Except.map, ht], by simp [chainToNodeList, hc]⟩
  | .combinator _ :: [] => by simp [wfAlternating]
  | .combinator _ :: .combinator _ :: _ => by simp [wfAlternating]
  | .combinator _ :: .collection _ :: _ => by simp [wfAlternating]
  | .combinator _ :: .nil :: _ => by simp [wfAlternating]
  | .selector _ :: _ => by simp [wfAlternating]
  | .collection _ :: _ => by simp [wfAlternating]
  | .nil :: _ => by simp [wfAlternating]

/-- A child list that is not alternating Combinator/Selector pairs makes
`nodeListToChain` fail with the malformed-chain error. -/
theorem nodeListToChain_malformed : ∀ (l : List Node), isAlternatingPairs l = false →
    nodeListToChain l = .error .malformedChain
  | [] => by simp [isAlternatingPairs]
  | .combinator c :: .selector (l0 :: ls) :: rest => by
      intro h
      simp only [isAlternatingPairs] at h
      simp [nodeListToChain, Except.map, nodeListToChain_malformed rest h]
  | .combinator _ :: .selector [] :: _ => fun _ => rfl
  | .combinator _ :: [] => fun _ => rfl
  | .combinator _ :: .combinator _ :: _ => fun _ => rfl
  | .combinator _ :: .collection _ :: _ => fun _ => rfl
  | .combinator _ :: .nil :: _ => fun _ => rfl
  | .selector _ :: _ => fun _ => rfl
  | .collection _ :: _ => fun _ => rfl
  | .nil :: _ => fun _ => rfl

/-- Every element of an alternating Combinator/Selector child list is a
Combinator node or a Selector node. -/
theorem alternating_elements : ∀ (l : List Node), isAlternatingPairs l = true →
    ∀ x ∈ l, (∃ c, x = Node.combinator c) ∨ ∃ s, x = Node.selector s
  | [] => by simp
  | .combinator c :: .selector (l0 :: ls) :: rest => by
      intro h x hx
      simp only [isAlternatingPairs] at h
      simp only [List.mem_cons] at hx
      rcases hx with rfl | rfl | hx
      · exact Or.inl ⟨c, rfl⟩
      · exact Or.inr ⟨l0 :: ls, rfl⟩
      · exact alternating_elements rest h x hx
  | .combinator _ :: .selector [] :: _ => by simp [isAlternatingPairs]
  | .combinator _ :: [] => by simp [isAlternatingPairs]
  | .combinator _ :: .combinator _ :: _ => by simp [isAlternatingPairs]
  | .combinator _ :: .collection _ :: _ => by simp [isAlternatingPairs]
  | .combinator _ :: .nil :: _ => by simp [isAlternatingPairs]
  | .selector _ :: _ => by simp [isAlternatingPairs]
  | .collection _ :: _ => by simp [isAlternatingPairs]
  | .nil :: _ => by simp [isAlternatingPairs]

/-- An alternating Combinator/Selector child list converts successfully. -/
theorem alternating_ok : ∀ (l : List Node), isAlternatingPairs l = true →
    ∃ t, nodeListToChain l = .ok t
  | [] => fun _ => ⟨[], rfl⟩
  | .combinator c :: .selector (l0 :: ls) :: rest => by
      intro h
      simp only [isAlternatingPairs] at h
      obtain ⟨t, ht⟩ := alternating_ok rest h
      exact ⟨⟨c, l0.head⟩ :: t, by simp [nodeListToChain, Except.map, ht]⟩
  | .combinator _ :: .selector [] :: _ => by simp [isAlternatingPairs]
  | .combinator _ :: [] => by simp [isAlternatingPairs]
  | .combinator _ :: .combinator _ :: _ => by simp [isAlternatingPairs]
  | .combinator _ :: .collection _ :: _ => by simp [isAlternatingPairs]
  | .combinator _ :: .nil :: _ => by simp [isAlternatingPairs]
  | .selector _ :: _ => by simp [isAlternatingPairs]
  | .collection _ :: _ => by simp [isAlternatingPairs]
  | .nil :: _ => by simp [isAlternatingPairs]

/-- C1: the two conversion functions are exact structural inverses —
`nodeToComplexSelector` after `complexSelectorToNode` recovers every chain,
and `complexSelectorToNode` after `nodeToComplexSelector` recovers every
well-formed alternating Combinator/Selector Collection. -/
theorem conversion_roundtrip :
    (∀ c : Chain, nodeToComplexSelector (complexSelectorToNode c) = .ok c) ∧
    (∀ l : List Node, wfAlternating l = true →
      ∃ c : Chain, nodeToComplexSelector (.collection l) = .ok c ∧
        complexSelectorToNode c = .collection l) := by
  constructor
  · intro c
    simpa [complexSelectorToNode, nodeToComplexSelector]
      using nodeListToChain_chainToNodeList c
  · intro l h
    obtain ⟨t, ht, hc⟩ := wf_roundtrip l h
    exact ⟨t, by simpa [nodeToComplexSelector] using ht,
      by simp [complexSelectorToNode, hc]⟩

/-- Closed instance of `conversion_roundtrip`: the node-to-chain-to-node
direction at a concrete one-link alternating Collection. -/
theorem conversion_roundtrip_witness :
    ∃ c : Chain,
      nodeToComplexSelector (.collection [Node.combinator Combinator.child,
        Node.selector [⟨Combinator.descendant, ["a"]⟩]]) = .ok c ∧
      complexSelectorToNode c = .collection [Node.combinator Combinator.child,
        Node.selector [⟨Combinator.descendant, ["a"]⟩]] :=
  conversion_roundtrip.2 [Node.combinator Combinator.child,
    Node.selector [⟨Combinator.descendant, ["a"]⟩]] (by rfl)

/-- C8: `nodeToComplexSelector` fails with the malformed-chain error — and
no partial result — whenever its input is not a Collection forming a flat
alternating Combinator/Selector sequence; a nested Collection or a Nil
element in the sequence always breaks alternation, and alternating input
always converts. -/
theorem nodeToChain_malformed_spec :
    (∀ l : List Node, isAlternatingPairs l = false →
      nodeToComplexSelector (.collection l) = .error .malformedChain) ∧
    (∀ (l m : List Node), Node.collection m ∈ l → isAlternatingPairs l = false) ∧
    (∀ l : List Node, Node.nil ∈ l → isAlternatingPairs l = false) ∧
    (∀ n : Node, n.isCollection = false →
      nodeToComplexSelector n = .error .malformedChain) ∧
    (∀ l : List Node, isAlternatingPairs l = true →
      ∃ t, nodeToComplexSelector (.collection l) = .ok t) := by
  refine ⟨?_, ?_, ?_, ?_, ?_⟩
  · intro l h
    simpa [nodeToComplexSelector] using nodeListToChain_malformed l h
  · intro l m hm
    rcases h : isAlternatingPairs l
    · rfl
    · rcases alternating_elements l h _ hm with ⟨c, hc⟩ | ⟨s, hs⟩
      · simp at hc
      · simp at hs
  · intro l hm
    rcases h : isAlternatingPairs l
    · rfl
    · rcases alternating_elements l h _ hm with ⟨c, hc⟩ | ⟨s, hs⟩
      · simp at hc
      · simp at hs
  · intro n h
    cases n <;> simp [Node.isCollection, Node.type] at h ⊢ <;> rfl
  · intro l h
    simpa [nodeToComplexSelector] using alternating_ok l h

/-- Closed instance of `nodeToChain_malformed_spec`: a Nil element where a
flat chain is required is a malformed-chain failure. -/
theorem nodeToChain_malformed_witness :
    nodeToComplexSelector (.collection [Node.nil]) = .error .malformedChain :=
  nodeToChain_malformed_spec.1 [Node.nil] (by rfl)

/-- C4: `a.plus(b)` on Collections appends b's elements, in order, to the
end of a: the result is exactly `a ++ b`, a's original elements are the
unchanged prefix and b's original elements are the new suffix; at deque
level, b's deque (a distinct allocation) is left unmodified. -/
theorem plus_spec :
    (∀ xs ys : List Node,
      Node.plus (.collection xs) (.collection ys) = .ok (.collection (xs ++ ys))) ∧
    (∀ xs ys : List Node,
      (xs ++ ys).take xs.length = xs ∧ (xs ++ ys).drop xs.length = ys) ∧
    (∀ (h : DequeHeap) (i j : Nat) (xs ys : List PNode), i ≠ j →
      h[i]? = some xs → h[j]? = some ys →
      plusP h (.collection i) (.collection j) = .ok (h.set i (xs ++ ys)) ∧
      (h.set i (xs ++ ys))[j]? = some ys ∧
      (h.set i (xs ++ ys))[i]? = some (xs ++ ys)) := by
  refine ⟨fun _ _ => rfl, fun xs ys => ⟨by simp, by simp⟩, ?_⟩
  intro h i j xs ys hij hi hj
  have hlen : i < h.length := (List.getElem?_eq_some_iff.mp hi).1
  refine ⟨by simp [plusP, hi, hj], ?_, ?_⟩
  · rw [List.getElem?_set_ne hij]
    exact hj
  · simp [List.getElem?_set_self, hlen]

/-- Closed instance of `plus_spec` on a concrete two-slot heap. -/
theorem plus_spec_witness :
    plusP [[PNode.nil], [PNode.combinator Combinator.child]]
        (.collection 0) (.collection 1) =
      .ok ([[PNode.nil], [PNode.combinator Combinator.child]].set 0
        ([PNode.nil] ++ [PNode.combinator Combinator.child])) ∧
    ([[PNode.nil], [PNode.combinator Combinator.child]].set 0
        ([PNode.nil] ++ [PNode.combinator Combinator.child]))[1]? =
      some [PNode.combinator Combinator.child] ∧
    ([[PNode.nil], [PNode.combinator Combinator.child]].set 0
        ([PNode.nil] ++ [PNode.combinator Combinator.child]))[0]? =
      some ([PNode.nil] ++ [PNode.combinator Combinator.child]) :=
  plus_spec.2.2 [[PNode.nil], [PNode.combinator Combinator.child]] 0 1
    [PNode.nil] [PNode.combinator Combinator.child] (by decide) (by rfl) (by rfl)

/-- C10: a plain copy of a Collection node designates the very same deque as
its source — the view through the copy always coincides with the view
through the original — so a subsequent `plus` through one observably changes
the elements seen via the other. -/
theorem collection_sharing :
    (∀ (h : DequeHeap) (n : PNode),
      PNode.collectionView h (copyPNode n) = PNode.collectionView h n) ∧
    (∀ (h : DequeHeap) (i j : Nat) (xs ys : List PNode), i ≠ j →
      h[i]? = some xs → h[j]? = some ys → ys ≠ [] →
      ∃ h2, plusP h (copyPNode (.collection i)) (.collection j) = .ok h2 ∧
        PNode.collectionView h2 (.collection i) = some (xs ++ ys) ∧
        PNode.collectionView h2 (.collection i) ≠
          PNode.collectionView h (.collection i)) := by
  refine ⟨fun _ _ => rfl, ?_⟩
  intro h i j xs ys hij hi hj hys
  have hlen : i < h.length := (List.getElem?_eq_some_iff.mp hi).1
  have hview : (h.set i (xs ++ ys))[i]? = some (xs ++ ys) := by
    simp [List.getElem?_set_self, hlen]
  refine ⟨h.set i (xs ++ ys), by simp [copyPNode, plusP, hi, hj], ?_, ?_⟩
  · simpa [PNode.collectionView] using hview
  · simp [PNode.collectionView, hview, hi, hys]

/-- Closed instance of `collection_sharing`: after `plus` through a copy of
the node for slot 0, the original's view of slot 0 has changed. -/
theorem collection_sharing_witness :
    ∃ h2, plusP [[], [PNode.nil]] (copyPNode (.collection 0)) (.collection 1) = .ok h2 ∧
      PNode.collectionView h2 (.collection 0) = some ([] ++ [PNode.nil]) ∧
      PNode.collectionView h2 (.collection 0) ≠
        PNode.collectionView [[], [PNode.nil]] (.collection 0) :=
  collection_sharing.2 [[], [PNode.nil]] 0 1 [] [PNode.nil]
    (by decide) (by rfl) (by rfl) (by simp)

/-- Reading an untouched slot of an extended allocation context. -/
theorem SelHeap.getD_append_left (h ext : SelHeap) (i : Nat) (hi : i < h.length) :
    (h ++ ext).getD i [] = h.getD i [] := by
  simp [List.getD, List.getElem?_append_left hi]

/-- Reading the slot just allocated at the end of the context. -/
theorem SelHeap.getD_append_self (h : SelHeap) (x : Chain) :
    (h ++ [x]).getD h.length [] = x := by
  simp [List.getD]

/-- Writing one slot leaves every other slot unchanged. -/
theorem SelHeap.getD_set_ne (h : SelHeap) (i j : Nat) (v : Chain) (hne : i ≠ j) :
    (h.set i v).getD j [] = h.getD j [] := by
  simp [List.getD, List.getElem?_set_ne hne]

mutual

theorem cloneS_fst : ∀ (h : SelHeap) (n : SNode), ∃ ext, (cloneS h n).1 = h ++ ext
  | h, .combinator _ => ⟨[], by simp [cloneS]⟩
  | h, .selector p => ⟨[h.getD p []], rfl⟩
  | h, .collection l => cloneSList_fst h l
  | h, .nil => ⟨[], by simp [cloneS]⟩

theorem cloneSList_fst : ∀ (h : SelHeap) (l : List SNode),
    ∃ ext, (cloneSList h l).1 = h ++ ext
  | h, [] => ⟨[], by simp [cloneSList]⟩
  | h, a :: as => by
      obtain ⟨e1, he1⟩ := cloneS_fst h a
      obtain ⟨e2, he2⟩ := cloneSList_fst (cloneS h a).1 as
      exact ⟨e1 ++ e2, by simp only [cloneSList]; rw [he2, he1, List.append_assoc]⟩

end

mutual

theorem cloneS_ptrs : ∀ (h : SelHeap) (n : SNode),
    ∀ p ∈ selPtrs (cloneS h n).2, h.length ≤ p ∧ p < (cloneS h n).1.length
  | h, .combinator _ => by simp [cloneS, selPtrs]
  | h, .selector q => by simp [cloneS, selPtrs]
  | h, .collection l => by
      simpa [cloneS, selPtrs] using cloneSList_ptrs h l
  | h, .nil => by simp [cloneS, selPtrs]

theorem cloneSList_ptrs : ∀ (h : SelHeap) (l : List SNode),
    ∀ p ∈ selPtrsList (cloneSList h l).2, h.length ≤ p ∧ p < (cloneSList h l).1.length
  | h, [] => by simp [cloneSList, selPtrsList]
  | h, a :: as => by
      intro p hp
      simp only [cloneSList, selPtrsList, List.mem_append] at hp
      obtain ⟨e1, he1⟩ := cloneS_fst h a
      obtain ⟨e2, he2⟩ := cloneSList_fst (cloneS h a).1 as
      rcases hp with hp | hp
      · obtain ⟨hl, hr⟩ := cloneS_ptrs h a p hp
        refine ⟨hl, ?_⟩
        have hlen : ((cloneSList (cloneS h a).1 as).1).length =
            ((cloneS h a).1).length + e2.length := by rw [he2]; simp
        simp only [cloneSList]
        omega
      · obtain ⟨hl, hr⟩ := cloneSList_ptrs (cloneS h a).1 as p hp
        have hlen : ((cloneS h a).1).length = h.length + e1.length := by rw [he1]; simp
        exact ⟨by omega, hr⟩

end

mutual

theorem derefS_congr : ∀ (h h2 : SelHeap) (n : SNode),
    (∀ p ∈ selPtrs n, h.getD p [] = h2.getD p []) → derefS h n = derefS h2 n
  | _, _, .combinator _ => fun _ => rfl
  | _, _, .nil => fun _ => rfl
  | h, h2, .selector p => fun hc => by
      simp only [derefS]
      rw [hc p (by simp [selPtrs])]
  | h, h2, .collection l => fun hc => by
      simp only [derefS]
      rw [derefSList_congr h h2 l (fun p hp => hc p (by simpa [selPtrs] using hp))]

theorem derefSList_congr : ∀ (h h2 : SelHeap) (l : List SNode),
    (∀ p ∈ selPtrsList l, h.getD p [] = h2.getD p []) → derefSList h l = derefSList h2 l
  | _, _, [] => fun _ => rfl
  | h, h2, a :: as => fun hc => by
      simp only [derefSList]
      rw [derefS_congr h h2 a (fun p hp => hc p (by simp [selPtrsList, hp])),
        derefSList_congr h h2 as (fun p hp => hc p (by simp [selPtrsList, hp]))]

end

mutual

theorem cloneS_deref : ∀ (h : SelHeap) (n : SNode),
    (∀ p ∈ selPtrs n, p < h.length) →
    derefS (cloneS h n).1 (cloneS h n).2 = derefS h n
  | _, .combinator _ => fun _ => rfl
  | _, .nil => fun _ => rfl
  | h, .selector p => fun _ => by
      simp [cloneS, derefS, SelHeap.getD_append_self]
  | h, .collection l => fun hw => by
      simp only [cloneS, derefS]
      rw [cloneSList_deref h l (fun p hp => hw p (by simpa [selPtrs] using hp))]

theorem cloneSList_deref : ∀ (h : SelHeap) (l : List SNode),
    (∀ p ∈ selPtrsList l, p < h.length) →
    derefSList (cloneSList h l).1 (cloneSList h l).2 = derefSList h l
  | _, [] => fun _ => rfl
  | h, a :: as => fun hw => by
      obtain ⟨e1, he1⟩ := cloneS_fst h a
      obtain ⟨e2, he2⟩ := cloneSList_fst (cloneS h a).1 as
      have hwa : ∀ p ∈ selPtrs a, p < h.length :=
        fun p hp => hw p (by simp [selPtrsList, hp])
      have hwas : ∀ p ∈ selPtrsList as, p < ((cloneS h a).1).length := by
        intro p hp
        have h1 := hw p (by simp [selPtrsList, hp])
        have h2 : ((cloneS h a).1).length = h.length + e1.length := by rw [he1]; simp
        omega
      simp only [cloneSList, derefSList]
      congr 1
      · have step2 : derefS (cloneSList (cloneS h a).1 as).1 (cloneS h a).2 =
            derefS (cloneS h a).1 (cloneS h a).2 := by
          apply derefS_congr
          intro p hp
          rw [he2]
          exact SelHeap.getD_append_left _ _ _ (cloneS_ptrs h a p hp).2
        rw [step2, cloneS_deref h a hwa]
      · have step2 : derefSList (cloneS h a).1 as = derefSList h as := by
          apply derefSList_congr
          intro p hp
          rw [he1]
          exact SelHeap.getD_append_left _ _ _ (hw p (by simp [selPtrsList, hp]))
        rw [cloneSList_deref (cloneS h a).1 as hwas, step2]

end

/-- C5: `clone(ctx)` produces a value structurally equal to the source that
shares no mutable state with it — the clone's selector payloads live in
fresh allocation-context slots disjoint from the source's, cloning leaves
every pre-existing slot untouched, and mutating any payload slot of the
clone never changes the source's observable value, nor vice versa. -/
theorem clone_independence :
    ∀ (h : SelHeap) (n : SNode) (h2 : SelHeap) (n2 : SNode),
      cloneS h n = (h2, n2) → (∀ p ∈ selPtrs n, p < h.length) →
      derefS h2 n2 = derefS h n ∧
      (∀ p ∈ selPtrs n2, h.length ≤ p ∧ p < h2.length) ∧
      (∀ i, i < h.length → h2.getD i [] = h.getD i []) ∧
      (∀ p ∈ selPtrs n2, ∀ v, derefS (h2.set p v) n = derefS h2 n) ∧
      (∀ p ∈ selPtrs n, ∀ v, derefS (h2.set p v) n2 = derefS h2 n2) := by
  intro h n h2 n2 he hw
  have e1 : h2 = (cloneS h n).1 := by rw [he]
  have e2 : n2 = (cloneS h n).2 := by rw [he]
  subst e1; subst e2
  obtain ⟨ext, hext⟩ := cloneS_fst h n
  refine ⟨cloneS_deref h n hw, cloneS_ptrs h n, ?_, ?_, ?_⟩
  · intro i hi
    rw [hext]
    exact SelHeap.getD_append_left h ext i hi
  · intro p hp v
    apply derefS_congr
    intro q hq
    have hq2 := hw q hq
    have hp2 := (cloneS_ptrs h n p hp).1
    exact SelHeap.getD_set_ne _ p q v (by omega)
  · intro p hp v
    apply derefS_congr
    intro q hq
    have hq2 := (cloneS_ptrs h n q hq).1
    have hp2 := hw p hp
    exact SelHeap.getD_set_ne _ p q v (by omega)

/-- Closed instance of `clone_independence`: cloning a Selector node over a
one-slot context allocates slot 1 and denotes the same value. -/
theorem clone_independence_witness :
    derefS [[⟨Combinator.descendant, ["a"]⟩], [⟨Combinator.descendant, ["a"]⟩]]
        (.selector 1) =
      derefS [[⟨Combinator.descendant, ["a"]⟩]] (.selector 0) :=
  (clone_independence [[⟨Combinator.descendant, ["a"]⟩]] (.selector 0)
    [[⟨Combinator.descendant, ["a"]⟩], [⟨Combinator.descendant, ["a"]⟩]]
    (.selector 1) (by rfl) (by simp [selPtrs])).1

end CodaSass
